import Mathlib

/-!
Verification development for the rstmdb-studio core: a shallow embedding of
the guard-expression compiler (GuardBuilder.tsx) and of the definition/graph
synchronizer (machine-builder/utils.ts), with theorems checking the
natural-language specification against the code.

JavaScript strings are modelled as lists of characters (`JStr`); JavaScript
numbers produced by `parseFloat` are modelled as canonical decimal tokens
(`JSNum`), so that `String(n)` is the token itself.  Fallible operations
return `Option`.
-/

namespace Studio

/-- JavaScript strings, modelled as lists of characters. -/
abbrev JStr := List Char

/-- Whitespace characters recognized by the model of JavaScript `trim`,
`parseFloat` leading-space skipping and the regex class `\s`
(the common ASCII subset: space, tab, newline, carriage return). -/
def isWs (c : Char) : Bool := c = ' ' || c = '\t' || c = '\n' || c = '\r'

/-- Model of `String.prototype.trim`: drop whitespace from both ends. -/
def jsTrim (l : JStr) : JStr := ((l.dropWhile isWs).reverse.dropWhile isWs).reverse

/-- Model of `String.prototype.includes`: substring occurrence test. -/
def jsIncludes (l sub : JStr) : Bool :=
  if sub.isPrefixOf l then true
  else
    match l with
    | [] => false
    | _ :: t => jsIncludes t sub

/-- Model of `String.prototype.split` on a one-character separator: scan
left to right, cutting at each occurrence. -/
def jsSplit1 (s0 : Char) : JStr → List JStr
  | [] => [[]]
  | c :: rest =>
    if s0 = c then [] :: jsSplit1 s0 rest
    else
      match jsSplit1 s0 rest with
      | [] => [[c]]
      | chunk :: chunks => (c :: chunk) :: chunks

/-- Model of `String.prototype.split` on a two-character separator: scan
left to right, cutting at each non-overlapping occurrence. -/
def jsSplit2 (s0 s1 : Char) : JStr → List JStr
  | [] => [[]]
  | [c] => [[c]]
  | c :: c' :: rest =>
    if s0 = c && s1 = c' then [] :: jsSplit2 s0 s1 rest
    else
      match jsSplit2 s0 s1 (c' :: rest) with
      | [] => [[c]]
      | chunk :: chunks => (c :: chunk) :: chunks

/-- Model of `String.prototype.split`; the embedded code only ever splits on
the separators `.`, `&&` and `||`, so one- and two-character separators
suffice (the empty-separator case never occurs). -/
def jsSplit (sep l : JStr) : List JStr :=
  match sep with
  | [] => [l]
  | [s0] => jsSplit1 s0 l
  | s0 :: s1 :: _ => jsSplit2 s0 s1 l

/-- Model of `Array.prototype.join`. -/
def jsJoin (sep : JStr) : List JStr → JStr
  | [] => []
  | [p] => p
  | p :: q :: ps => p ++ sep ++ jsJoin sep (q :: ps)

/-- The regex class `\w`: ASCII letters, digits and underscore. -/
def isWordChar (c : Char) : Bool := c.isAlphanum || c = '_'

/-- Characters that may occur in a dotted field path (`\w` or `.`). -/
def isPathChar (c : Char) : Bool := isWordChar c || c = '.'

/-- Full-match test for the regex `^\w+(\.\w+)*$`: every dot-separated
segment is non-empty and made of word characters. -/
def isWordDotPath (l : JStr) : Bool :=
  (jsSplit ['.'] l).all (fun seg => !seg.isEmpty && seg.all isWordChar)

/-- A JavaScript number as produced by `parseFloat` on the supported decimal
syntax, represented by its canonical decimal rendering (the result of
`String(n)`): optional `-`, integer digits without a useless leading zero,
optional `.` followed by fraction digits without trailing zeros. -/
structure JSNum where
  tok : JStr
deriving DecidableEq, Repr

/-- Drop leading `0` digits. -/
def stripLeadZeros (l : JStr) : JStr := l.dropWhile (fun c => c = '0')

/-- Drop trailing `0` digits. -/
def stripTrailZeros (l : JStr) : JStr := (l.reverse.dropWhile (fun c => c = '0')).reverse

/-- Build the canonical token for a parsed decimal: sign flag, integer-part
digits and fraction-part digits. -/
def mkNum (neg : Bool) (ip fp : JStr) : JSNum :=
  let ipz := stripLeadZeros ip
  let fpz := stripTrailZeros fp
  if ipz.isEmpty && fpz.isEmpty then ⟨['0']⟩
  else
    let ipart := if ipz.isEmpty then ['0'] else ipz
    let core := ipart ++ (if fpz.isEmpty then [] else '.' :: fpz)
    ⟨if neg then '-' :: core else core⟩

/-- The optional sign at the front of a decimal literal: the flag is true
for `-`, and the rest of the input follows. -/
def parseSign (l : JStr) : Bool × JStr :=
  match l with
  | '-' :: r => (true, r)
  | '+' :: r => (false, r)
  | _ => (false, l)

/-- The fraction digits after an optional decimal point. -/
def parseFrac (r1 : JStr) : JStr :=
  match r1 with
  | '.' :: r2 => r2.takeWhile Char.isDigit
  | _ => []

/-- Model of the JavaScript builtin `parseFloat` restricted to the syntax
`[+-]?(Infinity | digits[.digits])` (optionally preceded by whitespace,
followed by arbitrary ignored text); an `Infinity` prefix yields the infinite
value, whose canonical rendering `String(n)` is `Infinity` or `-Infinity`.
Exponent and hex forms are outside the model.  Returns `none` where
`parseFloat` returns `NaN`. -/
def jsParseFloat (l : JStr) : Option JSNum :=
  let l1 := l.dropWhile isWs
  let sr := parseSign l1
  if (("Infinity").toList).isPrefixOf sr.2 then
    some ⟨if sr.1 then ("-Infinity").toList else ("Infinity").toList⟩
  else
    let ip := sr.2.takeWhile Char.isDigit
    let r1 := sr.2.dropWhile Char.isDigit
    let fp := parseFrac r1
    if ip.isEmpty && fp.isEmpty then none else some (mkNum sr.1 ip fp)

/-- Guard condition values (`string | number | boolean | null`). -/
inductive Value where
  | str (s : JStr)
  | num (n : JSNum)
  | bool (b : Bool)
  | null
deriving DecidableEq, Repr

/-- The `Operator` union of `guard-builder/types.ts`:
`exists`, `not_exists`, `==`, `!=`, `>`, `>=`, `<`, `<=`. -/
inductive Operator where
  | existsOp
  | notExistsOp
  | eqOp
  | neOp
  | gtOp
  | geOp
  | ltOp
  | leOp
deriving DecidableEq, Repr

/-- The `Condition` interface of `guard-builder/types.ts`; an absent
`value`/`negated` field is `none`/`false`. -/
structure Condition where
  id : JStr
  field : JStr
  operator : Operator
  value : Option Value := none
  negated : Bool := false
deriving DecidableEq, Repr

/-- The logic connective of a `ConditionGroup`. -/
inductive Logic where
  | and
  | or
deriving DecidableEq, Repr

mutual
/-- A `GuardItem` is a `Condition` or a `ConditionGroup`. -/
inductive GuardItem where
  | cond (c : Condition)
  | group (g : ConditionGroup)
/-- The `ConditionGroup` interface: id, logic, items, negated flag. -/
inductive ConditionGroup where
  | mk (id : JStr) (logic : Logic) (items : List GuardItem) (negated : Bool)
end

/-- Projection: the `logic` field of a group. -/
def ConditionGroup.logic : ConditionGroup → Logic
  | .mk _ l _ _ => l

/-- Projection: the `items` field of a group. -/
def ConditionGroup.items : ConditionGroup → List GuardItem
  | .mk _ _ i _ => i

/-- Projection: the `negated` field of a group. -/
def ConditionGroup.negated : ConditionGroup → Bool
  | .mk _ _ _ n => n

/-- Projection: the `id` field of a group. -/
def ConditionGroup.gid : ConditionGroup → JStr
  | .mk i _ _ _ => i

/-- The `isCondition` type guard of `guard-builder/types.ts`. -/
def isCondition : GuardItem → Bool
  | .cond _ => true
  | .group _ => false

/-- Model of `generateId` (`Math.random().toString(36).substring(2, 9)`).
The source draws a random id; ids carry no semantic content and are never
compared by the embedded algorithms, so the model uses a constant. -/
def generateId : JStr := []

/-- The `formatValue` helper of `GuardBuilder.tsx` (null, quoted string,
boolean, otherwise `String(v)`); `none` models an `undefined` value. -/
def formatValue (v : Option Value) : JStr :=
  match v with
  | some .null => ("null").toList
  | some (.str s) => '"' :: (s ++ ['"'])
  | some (.bool b) => if b then ("true").toList else ("false").toList
  | some (.num n) => n.tok
  | none => ("undefined").toList

/-- Template-literal stringification `${v}` (JavaScript `String(v)`), used by
`conditionToString` for the ordering operators. -/
def jsToString (v : Option Value) : JStr :=
  match v with
  | some (.str s) => s
  | some (.num n) => n.tok
  | some (.bool b) => if b then ("true").toList else ("false").toList
  | some .null => ("null").toList
  | none => ("undefined").toList

/-- The `expr` local of `conditionToString`: the rendering of a condition
before negation wrapping. -/
def condCore (c : Condition) : JStr :=
  let field := ("ctx.").toList ++ c.field
  match c.operator with
  | .existsOp => field
  | .notExistsOp => '!' :: field
  | .eqOp => field ++ (" == ").toList ++ formatValue c.value
  | .neOp => field ++ (" != ").toList ++ formatValue c.value
  | .gtOp => field ++ (" > ").toList ++ jsToString c.value
  | .geOp => field ++ (" >= ").toList ++ jsToString c.value
  | .ltOp => field ++ (" < ").toList ++ jsToString c.value
  | .leOp => field ++ (" <= ").toList ++ jsToString c.value

/-- The `conditionToString` serializer of `GuardBuilder.tsx`. -/
def conditionToString (c : Condition) : JStr :=
  if c.negated then ("!(").toList ++ (condCore c ++ [')']) else condCore c

/-- The filter used by `groupToString`: conditions with a blank field are
dropped, nested groups are kept. -/
def groupKeep : GuardItem → Bool
  | .cond c => !(jsTrim c.field).isEmpty
  | .group _ => true

/-- The `isRootWithSingleCondition` helper, on a group's items and flag. -/
def isRootWithSingleCondition (items : List GuardItem) (negated : Bool) : Bool :=
  match items with
  | [i] => isCondition i && !negated
  | _ => false

mutual
/-- The mutually recursive `itemToString`/`groupToString` pair of
`GuardBuilder.tsx`, expressed on `GuardItem` (the group branch is the body of
`groupToString`).  Rendering is pure, so each item is paired with its
rendering first and the blank-field filter is applied to the pairs; this is
the source's filter-then-map, evaluated map-first. -/
def itemToString : GuardItem → JStr
  | .cond c => conditionToString c
  | .group (.mk _ logic items negated) =>
    let rendered := (renderItems items).filter (fun p => groupKeep p.1)
    if rendered.isEmpty then []
    else
      let parts := rendered.map (fun p => p.2)
      let joiner := if logic = Logic.and then (" && ").toList else (" || ").toList
      let expr0 := jsJoin joiner parts
      let expr1 :=
        if (decide (1 < rendered.length) || negated)
            && !(isRootWithSingleCondition items negated) then
          '(' :: (expr0 ++ [')'])
        else expr0
      if negated then '!' :: expr1 else expr1

/-- Pair every item of a list with its rendering. -/
def renderItems : List GuardItem → List (GuardItem × JStr)
  | [] => []
  | i :: t => (i, itemToString i) :: renderItems t
end

/-- The `groupToString` serializer (`itemToString` on a group item). -/
def groupToString (g : ConditionGroup) : JStr := itemToString (.group g)

mutual
/-- The recursive `hasValidConditions` test, expressed on `GuardItem`. -/
def itemHasValid : GuardItem → Bool
  | .cond c => !(jsTrim c.field).isEmpty
  | .group (.mk _ _ items _) => anyItemValid items

/-- Whether some item of a list passes `itemHasValid`. -/
def anyItemValid : List GuardItem → Bool
  | [] => false
  | i :: t => itemHasValid i || anyItemValid t
end

/-- Full-match model of the regex `^ctx\.(\w+(?:\.\w+)*)$`, returning the
captured path. -/
def matchCtxPath : JStr → Option JStr
  | 'c' :: 't' :: 'x' :: '.' :: rest => if isWordDotPath rest then some rest else none
  | _ => none

/-- Full-match model of the regex `^!ctx\.(\w+(?:\.\w+)*)$`. -/
def matchNotExistsPath : JStr → Option JStr
  | '!' :: rest => matchCtxPath rest
  | _ => none

/-- The operator alternation `(==|!=|>=|<=|>|<)` tried in source order as a
prefix of `l`. -/
def matchOp (l : JStr) : Option (Operator × JStr) :=
  if (("==").toList).isPrefixOf l then some (.eqOp, l.drop 2)
  else if (("!=").toList).isPrefixOf l then some (.neOp, l.drop 2)
  else if ((">=").toList).isPrefixOf l then some (.geOp, l.drop 2)
  else if (("<=").toList).isPrefixOf l then some (.leOp, l.drop 2)
  else if (['>']).isPrefixOf l then some (.gtOp, l.drop 1)
  else if (['<']).isPrefixOf l then some (.ltOp, l.drop 1)
  else none

/-- Model of the tail `\s*(.+)$` of the comparison regex: skip whitespace,
require a non-empty remainder containing no line terminator (JavaScript `.`
does not match `\n`/`\r`; when everything is whitespace, backtracking leaves
exactly the final character to `.+`). -/
def matchValueRest (r : JStr) : Option JStr :=
  if r.isEmpty then none
  else
    let v := r.dropWhile isWs
    if v.isEmpty then
      match r.getLast? with
      | some c => if c = '\n' || c = '\r' then none else some [c]
      | none => none
    else if v.any (fun c => c = '\n' || c = '\r') then none else some v

/-- Full-match model of `^ctx\.(\w+(?:\.\w+)*)\s*(==|!=|>=|<=|>|<)\s*(.+)$`.
The greedy field capture is the maximal run of word/dot characters: a match
with a shorter capture would leave a word character or a dot in front of the
`\s*`/operator part, where the regex cannot proceed, so the run must itself
be a well-formed dotted path for the regex to match. -/
def matchComparison (l : JStr) : Option (JStr × Operator × JStr) :=
  match l with
  | 'c' :: 't' :: 'x' :: '.' :: rest =>
    let f := rest.takeWhile isPathChar
    let r1 := rest.dropWhile isPathChar
    if isWordDotPath f then
      match matchOp (r1.dropWhile isWs) with
      | some (op, r2) =>
        match matchValueRest r2 with
        | some raw => some (f, op, raw)
        | none => none
      | none => none
    else none
  | _ => none

/-- The double-quote-delimited test of `parseValue`
(`raw.startsWith('\x22') && raw.endsWith('\x22')`). -/
def quoteWrapped (raw : JStr) : Bool :=
  (match raw.head? with | some '"' => true | _ => false)
    && (match raw.getLast? with | some '"' => true | _ => false)

/-- The `parseValue` classifier of `GuardBuilder.tsx`. -/
def parseValue (raw : JStr) : Value :=
  if raw = ("null").toList then .null
  else if raw = ("true").toList then .bool true
  else if raw = ("false").toList then .bool false
  else if quoteWrapped raw then
    .str ((raw.drop 1).dropLast)
  else
    match jsParseFloat raw with
    | some n => .num n
    | none => .str raw

/-- The regex cascade of `parseCondition` (the `not_exists`, `exists` and
comparison regexes tried in source order) on an already negation-stripped
expression. -/
def condMatchers (expr : JStr) (negated : Bool) : Option Condition :=
  match matchNotExistsPath expr with
  | some f =>
    some { id := generateId, field := f, operator := .notExistsOp, value := none,
           negated := negated }
  | none =>
  match matchCtxPath expr with
  | some f =>
    some { id := generateId, field := f, operator := .existsOp, value := none,
           negated := negated }
  | none =>
  match matchComparison expr with
  | some (f, op, raw) =>
    some { id := generateId, field := f, operator := op,
           value := some (parseValue (jsTrim raw)), negated := negated }
  | none => none

/-- The `parseCondition` function of `GuardBuilder.tsx`: optional `!(...)`
negation strip, then the regex cascade. -/
def parseCondition (part : JStr) : Option Condition :=
  let e0 := jsTrim part
  let strip := ((("!(").toList).isPrefixOf e0)
      && (match e0.getLast? with | some ')' => true | _ => false)
  let negated := strip
  let expr := if strip then (e0.drop 2).dropLast else e0
  condMatchers expr negated

/-- `parts.map(parseCondition)` followed by the `some(c => c === null)`
check of `parseExpression`: all parts must parse. -/
def parseParts : List JStr → Option (List Condition)
  | [] => some []
  | p :: ps =>
    match parseCondition p, parseParts ps with
    | some c, some cs => some (c :: cs)
    | _, _ => none

/-- The `parseExpression` function of `GuardBuilder.tsx`.  The source wraps
its body in `try`/`catch`, but every operation it performs is total, so
failure is exactly the explicit `null` returns, modelled by `none`. -/
def parseExpression (expr : JStr) : Option ConditionGroup :=
  if (jsTrim expr).isEmpty then none
  else
    let hasAnd := jsIncludes expr (("&&").toList)
    let hasOr := jsIncludes expr (("||").toList)
    if hasAnd && hasOr && !(jsIncludes expr ['(']) then none
    else
      let logic := if hasOr && !hasAnd then Logic.or else Logic.and
      let separator := if logic = Logic.or then ("||").toList else ("&&").toList
      let parts := (jsSplit separator expr).map jsTrim
      match parseParts parts with
      | some conds => some (.mk generateId logic (conds.map GuardItem.cond) false)
      | none => none

/-! Machine-builder data model (`lib/machine-builder/types.ts`, `lib/api.ts`)
and converters (`lib/machine-builder/utils.ts`).  State names, events and
guards are only ever compared for equality here, so they are modelled by
Lean `String`. -/

/-- An `XYPosition` (React Flow coordinates); the embedded code only moves
positions around, so integer coordinates suffice. -/
structure XYPosition where
  x : Int
  y : Int
deriving DecidableEq, Repr

/-- The `StateNodeData` interface: `{label, isInitial}`. -/
structure StateNodeData where
  label : String
  isInitial : Bool
deriving DecidableEq, Repr

/-- A `StateNode` (React Flow node of type `state`): id, position, data. -/
structure StateNode where
  id : String
  position : XYPosition
  data : StateNodeData
deriving DecidableEq, Repr

/-- The `TransitionEdgeData` interface: `{event, guard?, fromStates}`. -/
structure TransitionEdgeData where
  event : String
  guard : Option String
  fromStates : List String
deriving DecidableEq, Repr

/-- A `TransitionEdge` (React Flow edge of type `transition`); the React
Flow `data` field is optional. -/
structure TransitionEdge where
  id : String
  source : String
  target : String
  data : Option TransitionEdgeData
deriving DecidableEq, Repr

/-- The `from` field of a transition: `string | string[]`. -/
inductive FromField where
  | single (s : String)
  | multiple (ss : List String)
deriving DecidableEq, Repr

/-- A transition of a `MachineDefinition`; an absent `guard` is `none`. -/
structure Transition where
  frm : FromField
  event : String
  toS : String
  guard : Option String := none
deriving DecidableEq, Repr

/-- A value stored in the open `meta` bag: either the reserved
`_builderPositions` payload (state name to position) or an arbitrary opaque
value (tagged by a number). -/
inductive MetaVal where
  | positions (ps : List (String × XYPosition))
  | other (tag : Nat)
deriving DecidableEq, Repr

/-- A `Record<string, unknown>` metadata bag, modelled as a key/value list
without duplicate keys (JavaScript object semantics). -/
abbrev Meta := List (String × MetaVal)

/-- First-match association-list lookup (JavaScript property read). -/
def lookupA {α : Type} (l : List (String × α)) (k : String) : Option α :=
  match l with
  | [] => none
  | (k', v) :: t => if k' = k then some v else lookupA t k

/-- JavaScript object update `{...m, k: v}` / `m[k] = v`: overwrite the
value in place when the key exists, append the key otherwise. -/
def setKeyA {α : Type} (l : List (String × α)) (k : String) (v : α) : List (String × α) :=
  if (lookupA l k).isSome then l.map (fun q => if q.1 = k then (k, v) else q)
  else l ++ [(k, v)]

/-- The `MachineDefinition` wire shape (`lib/api.ts`). -/
structure MachineDefinition where
  states : List String
  initial : String
  transitions : List Transition
  meta : Option Meta := none
deriving DecidableEq, Repr

/-- The reserved meta key holding builder positions. -/
def builderPositionsKey : String := "_builderPositions"

/-- The `getStoredPositions` helper: `definition.meta?._builderPositions ||
{}`, an empty map when the key is absent or not a positions payload. -/
def getStoredPositions (d : MachineDefinition) : List (String × XYPosition) :=
  match lookupA (d.meta.getD []) builderPositionsKey with
  | some (.positions ps) => ps
  | _ => []

/-- Iterative integer square root (largest `k` with `k * k ≤ n`), a
kernel-reducible model of `Math.sqrt` on naturals. -/
def sqrtLoop (n : Nat) : Nat → Nat → Nat
  | 0, k => k
  | fuel + 1, k => if (k + 1) * (k + 1) ≤ n then sqrtLoop n fuel (k + 1) else k

/-- Model of `Math.ceil(Math.sqrt(n))` for a natural list length. -/
def jsCeilSqrt (n : Nat) : Nat :=
  let r := sqrtLoop n n 0
  if r * r = n then r else r + 1

/-- The grid spacing constants of `utils.ts`. -/
def NODE_SPACING_X : Int := 180

/-- The vertical grid spacing constant of `utils.ts`. -/
def NODE_SPACING_Y : Int := 100

/-- The `calculateDefaultPositions` grid layout of `utils.ts`. -/
def calculateDefaultPositions (states : List String) : List (String × XYPosition) :=
  let cols := jsCeilSqrt states.length
  states.enum.foldl
    (fun acc p =>
      setKeyA acc p.2
        ⟨(p.1 % cols : Nat) * NODE_SPACING_X + 50, (p.1 / cols : Nat) * NODE_SPACING_Y + 50⟩)
    []

/-- The `generateEdgeId` helper of `utils.ts`. -/
def generateEdgeId (frm tgt event : String) : String :=
  frm ++ "-" ++ event ++ "-" ++ tgt

/-- The string key used by `definitionToFlow`'s edge map:
`` `${fromState}->${transition.to}` ``. -/
def flowKey (fromState tgt : String) : String := fromState ++ "->" ++ tgt

/-- The `from` array normalization performed by `definitionToFlow`
(`Array.isArray(transition.from) ? transition.from : [transition.from]`). -/
def expandFrom : FromField → List String
  | .single s => [s]
  | .multiple ss => ss

/-- The node built by `definitionToFlow` for a state. -/
def mkStateNode (stored defaults : List (String × XYPosition)) (initial s : String) :
    StateNode :=
  { id := s,
    position :=
      match lookupA stored s with
      | some p => p
      | none => (lookupA defaults s).getD ⟨0, 0⟩,
    data := { label := s, isInitial := s = initial } }

/-- The fresh edge built by `definitionToFlow` for a `(transition, source)`
pair. -/
def newEdge (t : Transition) (fromState : String) : TransitionEdge :=
  { id := generateEdgeId fromState t.toS t.event,
    source := fromState,
    target := t.toS,
    data := some { event := t.event, guard := t.guard, fromStates := [fromState] } }

/-- The in-place mutation of an existing edge when a second transition hits
the same `(source, target)` pair (`existing.data = {...existing.data, ...}`);
the fall-back values mirror JavaScript's behaviour on an absent `data`. -/
def appendEdgeData (e : TransitionEdge) (t : Transition) (fromState : String) :
    TransitionEdge :=
  { e with
    data := some
      { event :=
          (match e.data with
           | some d => d.event
           | none => "undefined") ++ ", " ++ t.event,
        guard := match e.data with | some d => d.guard | none => none,
        fromStates :=
          (match e.data with | some d => d.fromStates | none => []) ++ [fromState] } }

/-- One step of `definitionToFlow`'s edge loop over an expanded
`(transition, fromState)` pair; the accumulator is the keyed edge list
(`edgeMap` entries in `edges` insertion order). -/
def edgeStep (acc : List (String × TransitionEdge)) (p : Transition × String) :
    List (String × TransitionEdge) :=
  let k := flowKey p.2 p.1.toS
  if (lookupA acc k).isSome then
    acc.map (fun q => if q.1 = k then (k, appendEdgeData q.2 p.1 p.2) else q)
  else acc ++ [(k, newEdge p.1 p.2)]

/-- The expansion of a definition's transitions into
`(transition, fromState)` pairs, in loop order. -/
def edgePairs (d : MachineDefinition) : List (Transition × String) :=
  d.transitions.flatMap (fun t => (expandFrom t.frm).map (fun f => (t, f)))

/-- The `definitionToFlow` converter of `utils.ts`. -/
def definitionToFlow (d : MachineDefinition) : List StateNode × List TransitionEdge :=
  let stored := getStoredPositions d
  let defaults := calculateDefaultPositions d.states
  let nodes := d.states.map (mkStateNode stored defaults d.initial)
  let edges := ((edgePairs d).foldl edgeStep []).map (fun q => q.2)
  (nodes, edges)

/-- An entry of `flowToDefinition`'s `transitionMap`. -/
structure TEntry where
  fromStates : List String
  event : String
  toS : String
  guard : Option String
deriving DecidableEq, Repr

/-- The string key used by `flowToDefinition`'s transition map:
`` `${edge.data.event}->${toNode.data.label}` ``. -/
def tKey (event lbl : String) : String := event ++ "->" ++ lbl

/-- One step of `flowToDefinition`'s edge loop: resolve the edge's endpoint
nodes, then create or extend the `(event, target)` group; edges with a
missing endpoint or missing data are skipped. -/
def transStep (nodes : List StateNode) (acc : List (String × TEntry))
    (e : TransitionEdge) : List (String × TEntry) :=
  match nodes.find? (fun n => n.id = e.source),
        nodes.find? (fun n => n.id = e.target), e.data with
  | some fn, some tn, some d =>
    let k := tKey d.event tn.data.label
    match lookupA acc k with
    | some ent =>
      let ent' :=
        if ent.fromStates.contains fn.data.label then ent
        else { ent with fromStates := ent.fromStates ++ [fn.data.label] }
      acc.map (fun q => if q.1 = k then (k, ent') else q)
    | none =>
      acc ++ [(k, { fromStates := [fn.data.label], event := d.event,
                    toS := tn.data.label, guard := d.guard })]
  | _, _, _ => acc

/-- The final transition format produced by `flowToDefinition`
(single name for a one-element source list, guard kept only when truthy). -/
def entryToTransition (ent : TEntry) : Transition :=
  { frm :=
      match ent.fromStates with
      | [s] => .single s
      | ss => .multiple ss,
    event := ent.event,
    toS := ent.toS,
    guard :=
      match ent.guard with
      | some s => if s = "" then none else some s
      | none => none }

/-- The position map written back into meta by `flowToDefinition`, keyed by
node label (later nodes overwrite earlier ones, as JavaScript objects do). -/
def buildPositions (nodes : List StateNode) : List (String × XYPosition) :=
  nodes.foldl (fun acc n => setKeyA acc n.data.label n.position) []

/-- The `flowToDefinition` converter of `utils.ts`. -/
def flowToDefinition (nodes : List StateNode) (edges : List TransitionEdge)
    (existingMeta : Option Meta) : MachineDefinition :=
  let states := nodes.map (fun n => n.data.label)
  let initialNode := nodes.find? (fun n => n.data.isInitial)
  let fb :=
    match states.head? with
    | some s => s
    | none => ""
  let initial :=
    match initialNode with
    | some n => if n.data.label = "" then fb else n.data.label
    | none => fb
  let tmap := edges.foldl (transStep nodes) []
  let transitions := tmap.map (fun q => entryToTransition q.2)
  let meta := setKeyA (existingMeta.getD []) builderPositionsKey
    (.positions (buildPositions nodes))
  { states := states, initial := initial, transitions := transitions, meta := some meta }

/-- The result shape of `validateBuilderState`. -/
structure ValidationOutcome where
  valid : Bool
  errors : List String
  warnings : List String
deriving DecidableEq, Repr

/-- The duplicate-name scan
`names.filter((name, index) => names.indexOf(name) !== index)`. -/
def dupNames (names : List String) : List String :=
  names.enum.filterMap
    (fun p => if names.indexOf p.2 ≠ p.1 then some p.2 else none)

/-- Insertion-order deduplication, the model of `[...new Set(xs)]`. -/
def jsDedup (xs : List String) : List String :=
  (xs.foldl (fun acc x => if acc.contains x then acc else acc ++ [x]) [])

/-- The `validateBuilderState` checker of `utils.ts`. -/
def validateBuilderState (nodes : List StateNode) (edges : List TransitionEdge) :
    ValidationOutcome :=
  if nodes.length = 0 then
    { valid := false, errors := ["State machine must have at least one state"],
      warnings := [] }
  else
    let e1 :=
      if nodes.any (fun n => n.data.isInitial) then []
      else ["State machine must have an initial state"]
    let e2 :=
      if 1 < (nodes.filter (fun n => n.data.isInitial)).length then
        ["State machine can only have one initial state"]
      else []
    let names := nodes.map (fun n => n.data.label)
    let duplicates := dupNames names
    let e3 :=
      if duplicates.length > 0 then
        ["Duplicate state names: " ++ String.intercalate ", " (jsDedup duplicates)]
      else []
    let e4 :=
      if (nodes.filter (fun n => (jsTrim n.data.label.toList).isEmpty)).length > 0 then
        ["All states must have a name"]
      else []
    let connected := edges.flatMap (fun e => [e.source, e.target])
    let warnings := nodes.filterMap
      (fun n =>
        if !n.data.isInitial && !(connected.contains n.id) then
          some ("State \"" ++ n.data.label ++ "\" has no transitions")
        else none)
    let e5 := edges.filterMap
      (fun e =>
        if (jsTrim ((match e.data with
                     | some d => d.event
                     | none => "")).toList).isEmpty then
          some ("Transition from \"" ++ e.source ++ "\" to \"" ++ e.target
            ++ "\" has no event name")
        else none)
    let errors := e1 ++ e2 ++ e3 ++ e4 ++ e5
    { valid := errors.length = 0, errors := errors, warnings := warnings }

/-! Claim-support definitions. -/

/-- Value classification exactly as the specification words it: a
double-quoted token becomes the enclosed string, `true`/`false` become
booleans, `null` becomes null, and any other token becomes a number when it
parses as a floating-point number and otherwise stays the lexical content. -/
def parseValueSpec (raw : JStr) : Value :=
  if quoteWrapped raw then
    .str ((raw.drop 1).dropLast)
  else if raw = ("true").toList then .bool true
  else if raw = ("false").toList then .bool false
  else if raw = ("null").toList then .null
  else
    match jsParseFloat raw with
    | some n => .num n
    | none => .str raw

/-- The worked example of the specification:
`{states:["a","b"], initial:"a", transitions:[{from:["a","b"],event:"go",to:"b"}]}`. -/
def exC1 : MachineDefinition :=
  { states := ["a", "b"], initial := "a",
    transitions := [{ frm := .multiple ["a", "b"], event := "go", toS := "b" }] }

/-- Two transitions sharing a `(source, target)` pair with different events:
the input on which the graph round-trip loses information. -/
def exC2 : MachineDefinition :=
  { states := ["a", "b"], initial := "a",
    transitions := [{ frm := .single "a", event := "e", toS := "b" },
                    { frm := .single "a", event := "f", toS := "b" }] }

/-- Transition normalization that forgets only the `string` versus
one-element-array distinction of `from` and keeps everything else, order
included. -/
def transNormL (t : Transition) : List String × String × String × Option String :=
  (expandFrom t.frm, t.event, t.toS, t.guard)

/-- Transition normalization used to state the specification's equivalence:
the `from` collection as a multiset (order-insensitive), with event, target
and guard. -/
def transNorm (t : Transition) : Multiset String × String × String × Option String :=
  ((expandFrom t.frm : Multiset String), t.event, t.toS, t.guard)

/-- The equivalence the specification claims for the graph round-trip: same
state list, same initial state, and the same multiset of transitions up to
`from`-order. -/
def roundTripEquiv (d d' : MachineDefinition) : Prop :=
  d'.states = d.states ∧ d'.initial = d.initial ∧
  (d'.transitions.map transNorm).Perm (d.transitions.map transNorm)

/-- Definition-to-graph-to-definition round trip, with the definition's own
meta as the prior meta. -/
def roundTrip (d : MachineDefinition) : MachineDefinition :=
  flowToDefinition (definitionToFlow d).1 (definitionToFlow d).2 d.meta

/-- The reference invariant of the data model, as a decidable check: every
`from` and `to` state of every transition is a member of `states`. -/
def refInvariant (d : MachineDefinition) : Bool :=
  d.transitions.all
    (fun t => (expandFrom t.frm).all (fun f => d.states.contains f)
      && d.states.contains t.toS)

theorem lookupA_nil {α : Type} (k : String) : lookupA ([] : List (String × α)) k = none := rfl

theorem lookupA_append {α : Type} (l1 l2 : List (String × α)) (k : String) :
    lookupA (l1 ++ l2) k =
      match lookupA l1 k with
      | some v => some v
      | none => lookupA l2 k := by
  induction l1 with
  | nil => simp [lookupA]
  | cons q t ih =>
    obtain ⟨k', v⟩ := q
    simp only [List.cons_append, lookupA]
    split <;> simp [ih]

theorem lookupA_some_mem {α : Type} {l : List (String × α)} {k : String} {v : α}
    (h : lookupA l k = some v) : (k, v) ∈ l := by
  induction l with
  | nil => simp [lookupA] at h
  | cons q t ih =>
    obtain ⟨k', v'⟩ := q
    simp only [lookupA] at h
    by_cases hk : k' = k
    · rw [if_pos hk] at h
      subst hk
      obtain rfl : v' = v := by injection h
      exact List.mem_cons_self _ _
    · rw [if_neg hk] at h
      exact List.mem_cons_of_mem _ (ih h)

theorem lookupA_map_replace {α : Type} (l : List (String × α)) (k : String) (v : α)
    (hk : lookupA l k = none) :
    l.map (fun q => if q.1 = k then (k, v) else q) = l := by
  induction l with
  | nil => rfl
  | cons q t ih =>
    obtain ⟨k', v'⟩ := q
    simp only [lookupA] at hk
    by_cases h : k' = k
    · rw [if_pos h] at hk
      exact absurd hk (by simp)
    · rw [if_neg h] at hk
      simp only [List.map_cons, if_neg h, ih hk]

theorem foldl_inv {α β : Type} (step : β → α → β) (P : β → Prop) (l : List α) (b : β)
    (h0 : P b) (hstep : ∀ b a, P b → P (step b a)) : P (l.foldl step b) := by
  induction l generalizing b with
  | nil => exact h0
  | cons a t ih => exact ih (step b a) (hstep b a h0)

/-! Claim C7: validation of an empty graph. -/

/-- C7: `validateBuilderState` applied to an empty graph (zero nodes, any
edge list) returns exactly one error, no warnings, `valid = false`, and
performs no further checks. -/
theorem c7_validate_empty (edges : List TransitionEdge) :
    validateBuilderState [] edges =
      { valid := false, errors := ["State machine must have at least one state"],
        warnings := [] } := rfl

/-! Claim C5: value classification. -/

/-- C5: for every raw value token, `parseValue` classifies it exactly as the
specification states: quoted tokens become the enclosed string, `true` and
`false` become booleans, `null` becomes null, and any other token becomes a
number when it parses as a floating-point number, otherwise the lexical
content as a string. -/
theorem c5_parse_value (raw : JStr) : parseValue raw = parseValueSpec raw := by
  by_cases h1 : raw = ("null").toList
  · subst h1; rfl
  by_cases h2 : raw = ("true").toList
  · subst h2; rfl
  by_cases h3 : raw = ("false").toList
  · subst h3; rfl
  simp only [parseValue, parseValueSpec, if_neg h1, if_neg h2, if_neg h3]

/-! Claim C6: total, exception-free parsing. -/

/-- C6: `parseExpression` is a total function that signals failure only
through its return value: every input yields either a group or `none`, and
the representative malformed inputs (unmatched parenthesis, empty operand
side, unparsable clause) all yield `none`. -/
theorem c6_parse_total :
    (∀ s : JStr, parseExpression s = none ∨ ∃ g, parseExpression s = some g)
    ∧ parseExpression (("(ctx.a").toList) = none
    ∧ parseExpression (("ctx.x &&").toList) = none
    ∧ parseExpression (("foo == 5").toList) = none := by
  refine ⟨fun s => ?_, rfl, rfl, rfl⟩
  cases h : parseExpression s
  · exact Or.inl rfl
  · exact Or.inr ⟨_, rfl⟩

/-! Claim C10: parser output trees are flat. -/

/-- C10: every group returned by a successful `parseExpression` is flat —
every item is a leaf condition and the root's negated flag is unset. -/
theorem c10_parse_flat (s : JStr) (g : ConditionGroup)
    (h : parseExpression s = some g) :
    g.negated = false ∧ (g.items.all isCondition) = true := by
  simp only [parseExpression] at h
  split at h
  · exact absurd h (by simp)
  · split at h
    · exact absurd h (by simp)
    · split at h
      · obtain rfl : ConditionGroup.mk generateId _ _ false = g := by injection h
        refine ⟨rfl, ?_⟩
        simp [ConditionGroup.items, List.all_map, isCondition, Function.comp]
      · exact absurd h (by simp)

/-- Witness for C10 at a concrete input. -/
theorem c10_parse_flat_witness :
    (ConditionGroup.mk [] .and
      [.cond { id := [], field := ['a'], operator := .existsOp, value := none,
               negated := false }] false).negated = false
    ∧ ((ConditionGroup.mk [] .and
      [.cond { id := [], field := ['a'], operator := .existsOp, value := none,
               negated := false }] false).items.all isCondition) = true :=
  c10_parse_flat (("ctx.a").toList) _ rfl

/-! Claim C1: shape of the definition-to-graph edge merge. -/

/-- Folding `edgeStep` over pairs with pairwise-distinct, fresh keys appends
one fresh edge per pair. -/
theorem foldl_edgeStep_fresh (ps : List (Transition × String))
    (acc : List (String × TransitionEdge))
    (hd : (ps.map (fun p => flowKey p.2 p.1.toS)).Nodup)
    (hdisj : ∀ p ∈ ps, lookupA acc (flowKey p.2 p.1.toS) = none) :
    ps.foldl edgeStep acc
      = acc ++ ps.map (fun p => (flowKey p.2 p.1.toS, newEdge p.1 p.2)) := by
  induction ps generalizing acc with
  | nil => simp
  | cons p ps ih =>
    simp only [List.map_cons, List.nodup_cons, List.mem_map] at hd
    obtain ⟨hnotin, hd'⟩ := hd
    have hnone : lookupA acc (flowKey p.2 p.1.toS) = none :=
      hdisj p (List.mem_cons_self _ _)
    have hstep : edgeStep acc p = acc ++ [(flowKey p.2 p.1.toS, newEdge p.1 p.2)] := by
      simp [edgeStep, hnone]
    rw [List.foldl_cons, hstep, ih _ hd']
    · simp
    · intro q hq
      rw [lookupA_append, hdisj q (List.mem_cons_of_mem _ hq)]
      simp only [lookupA]
      have hne : ¬ flowKey p.2 p.1.toS = flowKey q.2 q.1.toS := by
        intro he
        exact hnotin ⟨q, hq, he.symm⟩
      rw [if_neg hne]

/-- C1 counterexample: on the specification's own example, the converter
produces two edges (one per `(source, target)` pair), each with a singleton
`fromStates`, not one merged edge with `sourceStates = ["a", "b"]`. -/
theorem c1_counterexample :
    (definitionToFlow exC1).1.length = 2
    ∧ (definitionToFlow exC1).2.length = 2
    ∧ ((definitionToFlow exC1).2.map
        (fun e => (Option.map (fun d => d.fromStates) e.data).getD []))
      = [["a"], ["b"]] := by
  refine ⟨rfl, rfl, rfl⟩

/-- C1 amended: `definitionToFlow` produces one edge per expanded
`(source state, target)` pair — when those pairs have pairwise-distinct edge
keys, the edge list is exactly one fresh edge per pair, in expansion order,
each edge carrying `fromStates = [source]`; nodes are one per state. -/
theorem c1_amended (d : MachineDefinition)
    (h : ((edgePairs d).map (fun p => flowKey p.2 p.1.toS)).Nodup) :
    (definitionToFlow d).2 = (edgePairs d).map (fun p => newEdge p.1 p.2)
    ∧ (definitionToFlow d).1.length = d.states.length := by
  constructor
  · have he : (definitionToFlow d).2 = ((edgePairs d).foldl edgeStep []).map (fun q => q.2) :=
      rfl
    rw [he, foldl_edgeStep_fresh (edgePairs d) [] h (fun p _ => rfl)]
    simp [List.map_map, Function.comp]
  · simp [definitionToFlow]

/-- Witness for C1 amended at the specification's example. -/
theorem c1_amended_witness :
    (definitionToFlow exC1).2 = (edgePairs exC1).map (fun p => newEdge p.1 p.2)
    ∧ (definitionToFlow exC1).1.length = exC1.states.length :=
  c1_amended exC1 (by decide)

/-! Claim C2: the graph round-trip. -/

/-- C2 counterexample: `exC2` satisfies the stated data-model invariants,
yet the round trip merges its two transitions (events `e` and `f` from `a`
to `b`) into a single transition with event `"e, f"`, so no
transition-multiset equivalence can hold. -/
theorem c2_counterexample :
    exC2.initial ∈ exC2.states
    ∧ exC2.states.Nodup
    ∧ refInvariant exC2 = true
    ∧ (roundTrip exC2).transitions.map (fun t => t.event) = ["e, f"]
    ∧ ¬ roundTripEquiv exC2 (roundTrip exC2) := by
  refine ⟨by decide, by decide, by decide, rfl, ?_⟩
  intro h
  have hl := h.2.2.length_eq
  have h1 : ((roundTrip exC2).transitions.map transNorm).length = 1 := rfl
  have h2 : (exC2.transitions.map transNorm).length = 2 := rfl
  rw [h1, h2] at hl
  exact absurd hl (by decide)

/-! Claim C9: the reference invariant of flow-to-definition output. -/

/-- C9: for every graph input and prior meta, the definition produced by
`flowToDefinition` satisfies the reference invariant — every `from` state
and `to` state of every emitted transition is an element of the emitted
state list. -/
theorem c9_reference_invariant (nodes : List StateNode) (edges : List TransitionEdge)
    (m : Option Meta) :
    refInvariant (flowToDefinition nodes edges m) = true := by
  have hstates : (flowToDefinition nodes edges m).states
      = nodes.map (fun n => n.data.label) := rfl
  have htrans : (flowToDefinition nodes edges m).transitions
      = (edges.foldl (transStep nodes) []).map (fun q => entryToTransition q.2) := rfl
  have hinv : ∀ q ∈ edges.foldl (transStep nodes) [],
      (∀ f ∈ q.2.fromStates, f ∈ nodes.map (fun n => n.data.label))
      ∧ q.2.toS ∈ nodes.map (fun n => n.data.label) := by
    apply foldl_inv (transStep nodes)
      (fun acc => ∀ q ∈ acc,
        (∀ f ∈ q.2.fromStates, f ∈ nodes.map (fun n => n.data.label))
        ∧ q.2.toS ∈ nodes.map (fun n => n.data.label))
    · intro q hq
      exact absurd hq (List.not_mem_nil q)
    · intro acc e hP
      unfold transStep
      split
      case _ fn tn d hfn htn hd =>
        have hfnl : fn.data.label ∈ nodes.map (fun n => n.data.label) :=
          List.mem_map_of_mem _ (List.mem_of_find?_eq_some hfn)
        have htnl : tn.data.label ∈ nodes.map (fun n => n.data.label) :=
          List.mem_map_of_mem _ (List.mem_of_find?_eq_some htn)
        cases hlk : lookupA acc (tKey d.event tn.data.label) with
        | some ent =>
          simp only [hlk]
          intro q hq
          rcases List.mem_map.mp hq with ⟨q0, hq0, rfl⟩
          obtain ⟨hfr, hto⟩ := hP q0 hq0
          by_cases hk : q0.1 = tKey d.event tn.data.label
          · rw [if_pos hk]
            obtain ⟨hfr', hto'⟩ := hP _ (lookupA_some_mem hlk)
            constructor
            · intro f hf
              split at hf
              · exact hfr' f hf
              · rcases List.mem_append.mp hf with h | h
                · exact hfr' f h
                · rw [List.mem_singleton.mp h]
                  exact hfnl
            · split
              · exact hto'
              · exact hto'
          · rw [if_neg hk]
            exact ⟨hfr, hto⟩
        | none =>
          simp only [hlk]
          intro q hq
          rcases List.mem_append.mp hq with h | h
          · exact hP q h
          · rw [List.mem_singleton.mp h]
            refine ⟨?_, htnl⟩
            intro f hf
            rw [List.mem_singleton.mp hf]
            exact hfnl
      case _ =>
        exact hP
  rw [refInvariant, List.all_eq_true]
  intro t ht
  rw [htrans] at ht
  rcases List.mem_map.mp ht with ⟨q, hq, rfl⟩
  obtain ⟨hfr, hto⟩ := hinv q hq
  have hfrm : expandFrom (entryToTransition q.2).frm = q.2.fromStates := by
    unfold entryToTransition expandFrom
    rcases q.2.fromStates with _ | ⟨s, _ | ⟨s', t'⟩⟩ <;> rfl
  rw [Bool.and_eq_true, List.all_eq_true]
  constructor
  · intro f hf
    rw [hfrm] at hf
    rw [hstates]
    simpa using hfr f hf
  · rw [hstates]
    have hts : (entryToTransition q.2).toS = q.2.toS := rfl
    rw [hts]
    simpa using hto

/-! Claim C8: meta write-back preserves unrelated entries. -/

theorem lookupA_cons {α : Type} (ka : String) (va : α) (t : List (String × α))
    (k : String) :
    lookupA ((ka, va) :: t) k = if ka = k then some va else lookupA t k := rfl

theorem lookupA_map_setfn {α : Type} (t : List (String × α)) (k k' : String) (v : α)
    (hne : ¬ k = k') :
    lookupA (t.map (fun q => if q.1 = k then (k, v) else q)) k' = lookupA t k' := by
  induction t with
  | nil => rfl
  | cons a t ih =>
    obtain ⟨ka, va⟩ := a
    simp only [List.map_cons]
    by_cases h : ka = k
    · subst h
      rw [show (if (ka, va).1 = ka then (ka, v) else (ka, va)) = (ka, v) from if_pos rfl]
      rw [lookupA_cons, lookupA_cons, if_neg hne, if_neg hne, ih]
    · rw [show (if (ka, va).1 = k then (k, v) else (ka, va)) = (ka, va) from if_neg h]
      rw [lookupA_cons, lookupA_cons, ih]

theorem lookupA_map_setfn_hit {α : Type} (t : List (String × α)) (k : String) (v : α)
    (hs : (lookupA t k).isSome = true) :
    lookupA (t.map (fun q => if q.1 = k then (k, v) else q)) k = some v := by
  induction t with
  | nil => simp [lookupA] at hs
  | cons a t ih =>
    obtain ⟨ka, va⟩ := a
    by_cases h : ka = k
    · subst h
      simp [lookupA_cons]
    · rw [lookupA_cons, if_neg h] at hs
      simp only [List.map_cons]
      rw [show (if (ka, va).1 = k then (k, v) else (ka, va)) = (ka, va) from if_neg h]
      rw [lookupA_cons, if_neg h]
      exact ih hs

theorem lookupA_setKeyA {α : Type} (m : List (String × α)) (k k' : String) (v : α) :
    lookupA (setKeyA m k v) k' = if k = k' then some v else lookupA m k' := by
  unfold setKeyA
  by_cases hs : (lookupA m k).isSome = true
  · rw [if_pos hs]
    by_cases hk : k = k'
    · subst hk
      rw [if_pos rfl]
      exact lookupA_map_setfn_hit m k v hs
    · rw [if_neg hk]
      exact lookupA_map_setfn m k k' v hk
  · rw [if_neg hs]
    rw [lookupA_append]
    by_cases hk : k = k'
    · subst hk
      have hnone : lookupA m k = none := by
        cases hl : lookupA m k
        · rfl
        · rw [hl] at hs
          exact absurd rfl hs
      rw [hnone]
      simp [lookupA]
    · cases hl : lookupA m k'
      · simp only [lookupA, if_neg hk, if_neg hk]
      · rw [if_neg hk]

theorem foldl_setKey_untouched (ns : List StateNode)
    (acc : List (String × XYPosition)) (l : String)
    (h : l ∉ ns.map (fun x => x.data.label)) :
    lookupA (ns.foldl (fun a x => setKeyA a x.data.label x.position) acc) l
      = lookupA acc l := by
  induction ns generalizing acc with
  | nil => rfl
  | cons a t ih =>
    simp only [List.map_cons, List.mem_cons] at h
    push_neg at h
    simp only [List.foldl_cons]
    rw [ih _ h.2, lookupA_setKeyA, if_neg (fun he => h.1 he.symm)]

theorem buildPositions_lookup (ns : List StateNode)
    (acc : List (String × XYPosition)) (n : StateNode)
    (hn : n ∈ ns) (hnd : (ns.map (fun x => x.data.label)).Nodup) :
    lookupA (ns.foldl (fun a x => setKeyA a x.data.label x.position) acc) n.data.label
      = some n.position := by
  induction ns generalizing acc with
  | nil => cases hn
  | cons a t ih =>
    simp only [List.foldl_cons]
    have hnd' : a.data.label ∉ t.map (fun x => x.data.label)
        ∧ (t.map (fun x => x.data.label)).Nodup := by
      rw [List.map_cons] at hnd
      exact List.nodup_cons.mp hnd
    rcases List.mem_cons.mp hn with rfl | hmem
    · rw [foldl_setKey_untouched t _ _ hnd'.1, lookupA_setKeyA]
      simp
    · exact ih _ hmem hnd'.2

/-- C8: for every graph input and every prior meta map, the emitted meta
holds the positions of the current nodes under the reserved key and leaves
every other key/value entry of the prior meta unchanged; when node labels
are unique (the graph invariant), every node's position is recorded under
its label. -/
theorem c8_meta_frame (nodes : List StateNode) (edges : List TransitionEdge)
    (m : Meta) (k : String) :
    lookupA (((flowToDefinition nodes edges (some m)).meta).getD []) k
      = (if builderPositionsKey = k
         then some (MetaVal.positions (buildPositions nodes))
         else lookupA m k)
    ∧ ((nodes.map (fun n => n.data.label)).Nodup →
        (nodes.all (fun n =>
          lookupA (buildPositions nodes) n.data.label == some n.position)) = true) := by
  constructor
  · have hm : ((flowToDefinition nodes edges (some m)).meta).getD []
        = setKeyA m builderPositionsKey (.positions (buildPositions nodes)) := rfl
    rw [hm, lookupA_setKeyA]
  · intro hnd
    rw [List.all_eq_true]
    intro n hn
    rw [beq_iff_eq]
    exact buildPositions_lookup nodes [] n hn hnd

/-- Witness for C8 at a concrete graph and meta map. -/
theorem c8_meta_frame_witness :
    lookupA (((flowToDefinition
        [{ id := "a", position := ⟨1, 2⟩, data := { label := "a", isInitial := true } }]
        [] (some [("x", MetaVal.other 7)])).meta).getD []) "x"
      = (if builderPositionsKey = "x"
         then some (MetaVal.positions (buildPositions
           [{ id := "a", position := ⟨1, 2⟩, data := { label := "a", isInitial := true } }]))
         else lookupA [("x", MetaVal.other 7)] "x")
    ∧ ((([{ id := "a", position := ⟨1, 2⟩,
            data := { label := "a", isInitial := true } }] : List StateNode).map
          (fun n => n.data.label)).Nodup →
        (([{ id := "a", position := ⟨1, 2⟩,
             data := { label := "a", isInitial := true } }] : List StateNode).all
          (fun n => lookupA (buildPositions
            [{ id := "a", position := ⟨1, 2⟩, data := { label := "a", isInitial := true } }])
            n.data.label == some n.position)) = true) :=
  c8_meta_frame _ [] _ "x"

/-! Claim C2 (amended): the graph round-trip under the full invariants. -/

theorem find_node_by_id (sts : List String) (stored defaults : List (String × XYPosition))
    (init s : String) (hs : s ∈ sts) :
    ∃ n, (sts.map (mkStateNode stored defaults init)).find? (fun n => n.id = s) = some n
      ∧ n.data.label = s := by
  induction sts with
  | nil => cases hs
  | cons a t ih =>
    by_cases h : a = s
    · subst h
      refine ⟨mkStateNode stored defaults init a, ?_, rfl⟩
      rw [List.map_cons, List.find?_cons_of_pos]
      simp [mkStateNode]
    · have hs' : s ∈ t := by
        rcases List.mem_cons.mp hs with h' | h'
        · exact absurd h'.symm h
        · exact h'
      obtain ⟨n, hn, hnl⟩ := ih hs'
      refine ⟨n, ?_, hnl⟩
      rw [List.map_cons, List.find?_cons_of_neg, hn]
      simp [mkStateNode, h]

theorem find_initial_node (sts : List String) (stored defaults : List (String × XYPosition))
    (init : String) (hs : init ∈ sts) :
    ∃ n, (sts.map (mkStateNode stored defaults init)).find? (fun n => n.data.isInitial)
        = some n
      ∧ n.data.label = init := by
  induction sts with
  | nil => cases hs
  | cons a t ih =>
    by_cases h : a = init
    · subst h
      refine ⟨mkStateNode stored defaults a a, ?_, rfl⟩
      rw [List.map_cons, List.find?_cons_of_pos]
      simp [mkStateNode]
    · have hs' : init ∈ t := by
        rcases List.mem_cons.mp hs with h' | h'
        · exact absurd h' (fun he => h he.symm)
        · exact h'
      obtain ⟨n, hn, hnl⟩ := ih hs'
      refine ⟨n, ?_, hnl⟩
      rw [List.map_cons, List.find?_cons_of_neg, hn]
      simp [mkStateNode, h]

theorem transStep_single (sts : List String)
    (stored defaults : List (String × XYPosition)) (init : String)
    (t : Transition) (f : String) (acc : List (String × TEntry))
    (hf : f ∈ sts) (hto : t.toS ∈ sts) :
    transStep (sts.map (mkStateNode stored defaults init)) acc (newEdge t f)
      = (match lookupA acc (tKey t.event t.toS) with
         | some ent =>
           let ent' :=
             if ent.fromStates.contains f then ent
             else { ent with fromStates := ent.fromStates ++ [f] }
           acc.map (fun q => if q.1 = tKey t.event t.toS then (tKey t.event t.toS, ent') else q)
         | none =>
           acc ++ [(tKey t.event t.toS,
             { fromStates := [f], event := t.event, toS := t.toS, guard := t.guard })]) := by
  obtain ⟨fn, hfn, hfnl⟩ := find_node_by_id sts stored defaults init f hf
  obtain ⟨tn, htn, htnl⟩ := find_node_by_id sts stored defaults init t.toS hto
  unfold transStep
  rw [show (newEdge t f).source = f from rfl, show (newEdge t f).target = t.toS from rfl,
      hfn, htn,
      show (newEdge t f).data
        = some { event := t.event, guard := t.guard, fromStates := [f] } from rfl]
  simp only [hfnl, htnl]

theorem transStep_chunk (sts : List String)
    (stored defaults : List (String × XYPosition)) (init : String)
    (t : Transition) (fs : List String) (acc : List (String × TEntry)) (ent : TEntry)
    (hto : t.toS ∈ sts)
    (hfs : ∀ f ∈ fs, f ∈ sts)
    (hnd : fs.Nodup)
    (hdisj : ∀ f ∈ fs, f ∉ ent.fromStates)
    (hacck : lookupA acc (tKey t.event t.toS) = none) :
    (fs.map (newEdge t)).foldl
        (transStep (sts.map (mkStateNode stored defaults init)))
        (acc ++ [(tKey t.event t.toS, ent)])
      = acc ++ [(tKey t.event t.toS, { ent with fromStates := ent.fromStates ++ fs })] := by
  induction fs generalizing ent with
  | nil => simp
  | cons f fs ih =>
    have hlk : lookupA (acc ++ [(tKey t.event t.toS, ent)]) (tKey t.event t.toS)
        = some ent := by
      rw [lookupA_append, hacck, lookupA_cons, if_pos rfl]
    have hnomem : ¬ (ent.fromStates.contains f = true) := by
      intro hc
      exact hdisj f (List.mem_cons_self _ _) (by simpa using hc)
    have hstep :
        transStep (sts.map (mkStateNode stored defaults init))
            (acc ++ [(tKey t.event t.toS, ent)]) (newEdge t f)
          = acc ++ [(tKey t.event t.toS,
              { ent with fromStates := ent.fromStates ++ [f] })] := by
      rw [transStep_single sts stored defaults init t f _
            (hfs f (List.mem_cons_self _ _)) hto, hlk]
      simp only [Bool.not_eq_true] at hnomem
      simp only [hnomem, Bool.false_eq_true, if_false]
      rw [List.map_append, lookupA_map_replace acc _ _ hacck]
      simp
    rw [List.map_cons, List.foldl_cons, hstep]
    rw [ih { ent with fromStates := ent.fromStates ++ [f] }
          (fun g hg => hfs g (List.mem_cons_of_mem _ hg))
          (List.nodup_cons.mp hnd).2 ?_]
    · simp
    · intro g hg
      simp only [List.mem_append, List.mem_singleton]
      rintro (hg' | rfl)
      · exact hdisj g (List.mem_cons_of_mem _ hg) hg'
      · exact (List.nodup_cons.mp hnd).1 hg

theorem transStep_chunk_full (sts : List String)
    (stored defaults : List (String × XYPosition)) (init : String)
    (t : Transition) (acc : List (String × TEntry))
    (hto : t.toS ∈ sts)
    (hfs : ∀ f ∈ expandFrom t.frm, f ∈ sts)
    (hne : expandFrom t.frm ≠ [])
    (hnd : (expandFrom t.frm).Nodup)
    (hacck : lookupA acc (tKey t.event t.toS) = none) :
    ((expandFrom t.frm).map (newEdge t)).foldl
        (transStep (sts.map (mkStateNode stored defaults init))) acc
      = acc ++ [(tKey t.event t.toS,
          { fromStates := expandFrom t.frm, event := t.event, toS := t.toS,
            guard := t.guard })] := by
  cases hexp : expandFrom t.frm with
  | nil => exact absurd hexp hne
  | cons f0 fs =>
    rw [hexp] at hfs hnd
    have hstep :
        transStep (sts.map (mkStateNode stored defaults init)) acc (newEdge t f0)
          = acc ++ [(tKey t.event t.toS,
              { fromStates := [f0], event := t.event, toS := t.toS, guard := t.guard })] := by
      rw [transStep_single sts stored defaults init t f0 acc
            (hfs f0 (List.mem_cons_self _ _)) hto, hacck]
    rw [List.map_cons, List.foldl_cons, hstep,
        transStep_chunk sts stored defaults init t fs acc _ hto
          (fun g hg => hfs g (List.mem_cons_of_mem _ hg)) (List.nodup_cons.mp hnd).2
          ?_ hacck]
    · rfl
    · intro g hg
      simp only [List.mem_singleton]
      intro h
      exact (List.nodup_cons.mp hnd).1 (h ▸ hg)

theorem transStep_all (sts : List String)
    (stored defaults : List (String × XYPosition)) (init : String)
    (ts : List Transition) (acc : List (String × TEntry))
    (hmem : ∀ t ∈ ts, (∀ f ∈ expandFrom t.frm, f ∈ sts) ∧ t.toS ∈ sts)
    (hne : ∀ t ∈ ts, expandFrom t.frm ≠ [])
    (hfnd : ∀ t ∈ ts, (expandFrom t.frm).Nodup)
    (hkeys : (ts.map (fun t => tKey t.event t.toS)).Nodup)
    (hacc : ∀ t ∈ ts, lookupA acc (tKey t.event t.toS) = none) :
    (ts.flatMap (fun t => (expandFrom t.frm).map (newEdge t))).foldl
        (transStep (sts.map (mkStateNode stored defaults init))) acc
      = acc ++ ts.map (fun t => (tKey t.event t.toS,
          ({ fromStates := expandFrom t.frm, event := t.event, toS := t.toS,
             guard := t.guard } : TEntry))) := by
  induction ts generalizing acc with
  | nil => simp
  | cons t ts ih =>
    simp only [List.map_cons, List.nodup_cons, List.mem_map] at hkeys
    obtain ⟨hknotin, hkeys'⟩ := hkeys
    rw [List.flatMap_cons, List.foldl_append,
        transStep_chunk_full sts stored defaults init t acc
          (hmem t (List.mem_cons_self _ _)).2 (hmem t (List.mem_cons_self _ _)).1
          (hne t (List.mem_cons_self _ _)) (hfnd t (List.mem_cons_self _ _))
          (hacc t (List.mem_cons_self _ _)),
        ih _ (fun u hu => hmem u (List.mem_cons_of_mem _ hu))
          (fun u hu => hne u (List.mem_cons_of_mem _ hu))
          (fun u hu => hfnd u (List.mem_cons_of_mem _ hu)) hkeys' ?_]
    · simp
    · intro u hu
      rw [lookupA_append, hacc u (List.mem_cons_of_mem _ hu), lookupA_cons]
      rw [if_neg (fun he => hknotin ⟨u, hu, he.symm⟩)]
      rfl

theorem entryToTransition_frm (fs : List String) (ev tos : String) (g : Option String) :
    expandFrom (entryToTransition
      { fromStates := fs, event := ev, toS := tos, guard := g }).frm = fs := by
  unfold entryToTransition expandFrom
  rcases fs with _ | ⟨s, _ | ⟨s', t'⟩⟩ <;> rfl

theorem entryToTransition_guard (fs : List String) (ev tos : String) (g : Option String)
    (hgne : g ≠ some "") :
    (entryToTransition { fromStates := fs, event := ev, toS := tos, guard := g }).guard
      = g := by
  cases g with
  | none => rfl
  | some s =>
    have hs : s ≠ "" := fun he => hgne (by rw [he])
    simp [entryToTransition, hs]

theorem map_pairs_newEdge (ts : List Transition) :
    ((ts.flatMap (fun t => (expandFrom t.frm).map (fun f => (t, f)))).map
      (fun p => newEdge p.1 p.2))
      = ts.flatMap (fun t => (expandFrom t.frm).map (newEdge t)) := by
  induction ts with
  | nil => rfl
  | cons t ts ih =>
    simp only [List.flatMap_cons, List.map_append, List.map_map, ih]
    rfl

/-- C2 amended: for every definition satisfying the data-model invariants
(initial a non-blank member of states, unique state names, every from/to a
member of states) together with the conditions the merge structure forces —
non-empty, duplicate-free `from` collections, pairwise-distinct expanded
`(source, target)` edge keys, pairwise-distinct `(event, target)` transition
keys, and no empty-string guards — converting to a graph and back yields a
definition with the same state list, the same initial state, and the same
transitions up to collapsing a one-element `from` array to a bare name. -/
theorem c2_amended (d : MachineDefinition)
    (hinit : d.initial ∈ d.states)
    (hinitne : d.initial ≠ "")
    (hnodupS : d.states.Nodup)
    (hmem : refInvariant d = true)
    (hne : ∀ t ∈ d.transitions, expandFrom t.frm ≠ [])
    (hfnd : ∀ t ∈ d.transitions, (expandFrom t.frm).Nodup)
    (hkeys1 : ((edgePairs d).map (fun p => flowKey p.2 p.1.toS)).Nodup)
    (hkeys2 : (d.transitions.map (fun t => tKey t.event t.toS)).Nodup)
    (hguard : ∀ t ∈ d.transitions, t.guard ≠ some "") :
    roundTripEquiv d (roundTrip d)
    ∧ (roundTrip d).states = d.states
    ∧ (roundTrip d).initial = d.initial
    ∧ (roundTrip d).transitions.map transNormL = d.transitions.map transNormL := by
  have hmem' : ∀ t ∈ d.transitions,
      (∀ f ∈ expandFrom t.frm, f ∈ d.states) ∧ t.toS ∈ d.states := by
    intro t ht
    rw [refInvariant, List.all_eq_true] at hmem
    have h1 := hmem t ht
    rw [Bool.and_eq_true, List.all_eq_true] at h1
    refine ⟨fun f hf => ?_, ?_⟩
    · have := h1.1 f hf
      simpa using this
    · have := h1.2
      simpa using this
  have hedges : (definitionToFlow d).2
      = d.transitions.flatMap (fun t => (expandFrom t.frm).map (newEdge t)) := by
    rw [(c1_amended d hkeys1).1]
    have h2 : edgePairs d
        = d.transitions.flatMap (fun t => (expandFrom t.frm).map (fun f => (t, f))) := rfl
    rw [h2, map_pairs_newEdge]
  have hnodes : (definitionToFlow d).1
      = d.states.map (mkStateNode (getStoredPositions d)
          (calculateDefaultPositions d.states) d.initial) := rfl
  have hstates : (roundTrip d).states = d.states := by
    show ((definitionToFlow d).1.map (fun n => n.data.label)) = d.states
    rw [hnodes, List.map_map]
    have h3 : ((fun n : StateNode => n.data.label) ∘
        mkStateNode (getStoredPositions d) (calculateDefaultPositions d.states) d.initial)
        = fun s => s := rfl
    rw [h3, List.map_id']
  have hfold : (definitionToFlow d).2.foldl
        (transStep (definitionToFlow d).1) []
      = [] ++ d.transitions.map (fun t => (tKey t.event t.toS,
          ({ fromStates := expandFrom t.frm, event := t.event, toS := t.toS,
             guard := t.guard } : TEntry))) := by
    rw [hedges, hnodes]
    exact transStep_all d.states _ _ d.initial d.transitions [] hmem' hne hfnd hkeys2
      (fun t _ => rfl)
  have htrans : (roundTrip d).transitions.map transNormL
      = d.transitions.map transNormL := by
    show (((definitionToFlow d).2.foldl (transStep (definitionToFlow d).1) []).map
        (fun q => entryToTransition q.2)).map transNormL = _
    rw [hfold]
    simp only [List.nil_append, List.map_map]
    apply List.map_congr_left
    intro t ht
    show transNormL (entryToTransition
      { fromStates := expandFrom t.frm, event := t.event, toS := t.toS,
        guard := t.guard }) = transNormL t
    unfold transNormL
    rw [entryToTransition_frm, entryToTransition_guard _ _ _ _ (hguard t ht)]
    rfl
  have hinit' : (roundTrip d).initial = d.initial := by
    obtain ⟨n, hn, hnl⟩ := find_initial_node d.states (getStoredPositions d)
      (calculateDefaultPositions d.states) d.initial hinit
    show (match (definitionToFlow d).1.find? (fun n => n.data.isInitial) with
          | some n => if n.data.label = "" then _ else n.data.label
          | none => _) = d.initial
    rw [hnodes, hn]
    simp only [hnl]
    rw [if_neg hinitne]
  refine ⟨⟨hstates, hinit', ?_⟩, hstates, hinit', htrans⟩
  have hperm : (roundTrip d).transitions.map transNorm = d.transitions.map transNorm := by
    have hcomp : ∀ l : List Transition,
        l.map transNorm = (l.map transNormL).map
          (fun x => ((x.1 : Multiset String), x.2.1, x.2.2.1, x.2.2.2)) := by
      intro l
      rw [List.map_map]
      rfl
    rw [hcomp, hcomp, htrans]
  rw [hperm]

/-- Witness for C2 amended at the specification's example definition. -/
theorem c2_amended_witness :
    roundTripEquiv exC1 (roundTrip exC1)
    ∧ (roundTrip exC1).states = exC1.states
    ∧ (roundTrip exC1).initial = exC1.initial
    ∧ (roundTrip exC1).transitions.map transNormL = exC1.transitions.map transNormL :=
  c2_amended exC1 (by decide) (by decide) (by decide) (by decide) (by decide) (by decide)
    (by decide) (by decide) (by decide)

/-! Character, trim, includes, split and join lemmas for the guard
round-trip. -/

theorem isWs_cases (c : Char) (h : isWs c = true) :
    c = ' ' ∨ c = '\t' ∨ c = '\n' ∨ c = '\r' := by
  unfold isWs at h
  rcases Bool.or_eq_true_iff.mp h with h1 | h1
  · rcases Bool.or_eq_true_iff.mp h1 with h2 | h2
    · rcases Bool.or_eq_true_iff.mp h2 with h3 | h3
      · exact Or.inl (of_decide_eq_true h3)
      · exact Or.inr (Or.inl (of_decide_eq_true h3))
    · exact Or.inr (Or.inr (Or.inl (of_decide_eq_true h2)))
  · exact Or.inr (Or.inr (Or.inr (of_decide_eq_true h1)))

theorem isWordChar_props (c : Char) (h : isWordChar c = true) :
    c ≠ '&' ∧ c ≠ '|' ∧ c ≠ '.' ∧ isWs c = false ∧ c ≠ '\n' ∧ c ≠ '\r' := by
  have hne : ∀ d : Char, isWordChar d = false → c ≠ d := by
    intro d hd he
    rw [he, hd] at h
    exact absurd h (by decide)
  refine ⟨hne '&' (by decide), hne '|' (by decide), hne '.' (by decide), ?_,
    hne '\n' (by decide), hne '\r' (by decide)⟩
  cases hws : isWs c
  · rfl
  · rcases isWs_cases c hws with rfl | rfl | rfl | rfl <;> exact absurd h (by decide)

theorem isPathChar_props (c : Char) (h : isPathChar c = true) :
    c ≠ '&' ∧ c ≠ '|' ∧ isWs c = false := by
  have hne : ∀ d : Char, isPathChar d = false → c ≠ d := by
    intro d hd he
    rw [he, hd] at h
    exact absurd h (by decide)
  refine ⟨hne '&' (by decide), hne '|' (by decide), ?_⟩
  cases hws : isWs c
  · rfl
  · rcases isWs_cases c hws with rfl | rfl | rfl | rfl <;> exact absurd h (by decide)

theorem dropWhile_eq_self_of_head (p : Char → Bool) (l : JStr)
    (h : ∀ c, l.head? = some c → p c = false) : l.dropWhile p = l := by
  cases l with
  | nil => rfl
  | cons c t =>
    rw [List.dropWhile_cons, h c rfl]
    simp

theorem jsTrim_eq_self (l : JStr)
    (h1 : ∀ c, l.head? = some c → isWs c = false)
    (h2 : ∀ c, l.getLast? = some c → isWs c = false) : jsTrim l = l := by
  unfold jsTrim
  rw [dropWhile_eq_self_of_head _ _ h1]
  rw [dropWhile_eq_self_of_head _ _
    (fun c hc => h2 c (by rwa [List.head?_reverse] at hc)), List.reverse_reverse]

theorem jsIncludes_eq_false (l : JStr) (a : Char) (ss : JStr)
    (h : ∀ c ∈ l, c ≠ a) : jsIncludes l (a :: ss) = false := by
  induction l with
  | nil => rfl
  | cons c t ih =>
    have hpre : (a :: ss).isPrefixOf (c :: t) = false := by
      have hac : (a == c) = false :=
        beq_eq_false_iff_ne.mpr (fun he => h c (List.mem_cons_self _ _) he.symm)
      simp [List.isPrefixOf, hac]
    unfold jsIncludes
    rw [hpre]
    simp only [Bool.false_eq_true, if_false]
    exact ih (fun x hx => h x (List.mem_cons_of_mem _ hx))

theorem isPrefixOf_append_self (s y : JStr) : s.isPrefixOf (s ++ y) = true := by
  induction s with
  | nil => cases y <;> rfl
  | cons c t ih => simp [List.isPrefixOf, ih]

theorem jsSplit2_no_occ (a : Char) (l : JStr) (h : ∀ c ∈ l, c ≠ a) :
    jsSplit2 a a l = [l] := by
  induction l with
  | nil => rfl
  | cons c t ih =>
    cases t with
    | nil => rfl
    | cons c' rest =>
      have hc : (a = c) = False := by
        simp only [eq_iff_iff, iff_false]
        exact fun he => h c (List.mem_cons_self _ _) he.symm
      simp only [jsSplit2, hc, decide_False, Bool.false_and, Bool.false_eq_true, if_false]
      rw [ih (fun x hx => h x (List.mem_cons_of_mem _ hx))]

theorem mem_of_getLast?_eq : ∀ (l : JStr) (c : Char), l.getLast? = some c → c ∈ l
  | [], _, h => Option.noConfusion h
  | [a], c, h => by
    injection h with h'
    exact h' ▸ List.mem_cons_self a []
  | a :: b :: t, c, h => by
    rw [List.getLast?_cons_cons] at h
    exact List.mem_cons_of_mem a (mem_of_getLast?_eq (b :: t) c h)

theorem getLast?_append_right (l1 l2 : JStr) (h : l2 ≠ []) :
    (l1 ++ l2).getLast? = l2.getLast? := by
  rw [List.getLast?_append]
  cases hl : l2.getLast? with
  | none => exact absurd (List.getLast?_eq_none_iff.mp hl) h
  | some c => rfl

theorem ne_nil_of_head?_eq {l : JStr} {c : Char} (h : l.head? = some c) : l ≠ [] := by
  intro he
  rw [he] at h
  exact Option.noConfusion h

theorem dropWhile_head_not (p : Char → Bool) (l : JStr) :
    ∀ c, (l.dropWhile p).head? = some c → p c = false := by
  induction l with
  | nil => intro c hc; exact Option.noConfusion hc
  | cons a t ih =>
    intro c hc
    rw [List.dropWhile_cons] at hc
    by_cases h : p a = true
    · rw [if_pos h] at hc
      exact ih c hc
    · rw [if_neg h] at hc
      injection hc with h'
      rw [← h']
      exact Bool.eq_false_iff.mpr h

theorem jsSplit1_ne_nil (s0 : Char) (l : JStr) : jsSplit1 s0 l ≠ [] := by
  cases l with
  | nil => simp [jsSplit1]
  | cons c t =>
    simp only [jsSplit1]
    split
    · simp
    · split <;> simp

theorem mem_jsSplit1 (s0 : Char) (c : Char) :
    ∀ l : JStr, c ∈ l → c = s0 ∨ ∃ seg ∈ jsSplit1 s0 l, c ∈ seg
  | [], h => absurd h (List.not_mem_nil c)
  | d :: rest, h => by
    by_cases hs : s0 = d
    · have hsp : jsSplit1 s0 (d :: rest) = [] :: jsSplit1 s0 rest := by
        simp [jsSplit1, hs]
      rcases List.mem_cons.mp h with rfl | h1
      · exact Or.inl hs.symm
      · rcases mem_jsSplit1 s0 c rest h1 with h2 | ⟨seg, hseg, hcs⟩
        · exact Or.inl h2
        · exact Or.inr ⟨seg, by rw [hsp]; exact List.mem_cons_of_mem _ hseg, hcs⟩
    · obtain ⟨ch, chs, hch⟩ : ∃ ch chs, jsSplit1 s0 rest = ch :: chs := by
        cases hx : jsSplit1 s0 rest with
        | nil => exact absurd hx (jsSplit1_ne_nil s0 rest)
        | cons ch chs => exact ⟨ch, chs, rfl⟩
      have hsp : jsSplit1 s0 (d :: rest) = (d :: ch) :: chs := by
        simp only [jsSplit1, hch]
        rw [if_neg (by simpa using hs)]
      rcases List.mem_cons.mp h with rfl | h1
      · exact Or.inr ⟨c :: ch, by rw [hsp]; exact List.mem_cons_self _ _,
          List.mem_cons_self c ch⟩
      · rcases mem_jsSplit1 s0 c rest h1 with h2 | ⟨seg, hseg, hcs⟩
        · exact Or.inl h2
        · rw [hch] at hseg
          rcases List.mem_cons.mp hseg with rfl | h3
          · exact Or.inr ⟨d :: seg, by rw [hsp]; exact List.mem_cons_self _ _,
              List.mem_cons_of_mem d hcs⟩
          · exact Or.inr ⟨seg, by rw [hsp]; exact List.mem_cons_of_mem _ h3, hcs⟩

theorem wdp_chars {f : JStr} (hf : isWordDotPath f = true) :
    ∀ c ∈ f, isPathChar c = true := by
  intro c hc
  rcases mem_jsSplit1 '.' c f hc with rfl | ⟨seg, hseg, hcs⟩
  · decide
  · unfold isWordDotPath at hf
    have hseg' : seg ∈ jsSplit ['.'] f := by
      have he : jsSplit ['.'] f = jsSplit1 '.' f := rfl
      rw [he]
      exact hseg
    have := List.all_eq_true.mp hf seg hseg'
    have hw : seg.all isWordChar = true := (Bool.and_eq_true_iff.mp this).2
    have hcw := List.all_eq_true.mp hw c hcs
    unfold isPathChar
    rw [hcw]
    rfl

theorem wdp_ne_nil {f : JStr} (hf : isWordDotPath f = true) : f ≠ [] := by
  intro he
  subst he
  exact absurd hf (by decide)

theorem head_concrete {l : JStr} {d : Char} (h : l.head? = some d)
    (hd : isWs d = false) : ∀ ch, l.head? = some ch → isWs ch = false := by
  intro ch hch
  rw [h] at hch
  injection hch with h'
  rw [← h']
  exact hd

theorem last_concrete {l : JStr} {d : Char} (h : l.getLast? = some d)
    (hd : isWs d = false) : ∀ ch, l.getLast? = some ch → isWs ch = false := by
  intro ch hch
  rw [h] at hch
  injection hch with h'
  rw [← h']
  exact hd

theorem matchCtxPath_ctx (rest : JStr) :
    matchCtxPath ((("ctx.").toList) ++ rest)
      = if isWordDotPath rest then some rest else none := rfl

theorem matchNotExistsPath_ctx (rest : JStr) :
    matchNotExistsPath ((("ctx.").toList) ++ rest) = none := rfl

theorem matchNotExistsPath_bang (rest : JStr) :
    matchNotExistsPath ('!' :: rest) = matchCtxPath rest := rfl

theorem bang_prefix_ctx (rest : JStr) :
    List.isPrefixOf (("!(").toList) ((("ctx.").toList) ++ rest) = false := rfl

theorem bang_prefix_bang_ctx (rest : JStr) :
    List.isPrefixOf (("!(").toList) ('!' :: ((("ctx.").toList) ++ rest)) = false := rfl

theorem rparen_match_true {l : JStr} (h : l.getLast? = some ')') :
    (match l.getLast? with | some ')' => true | _ => false) = true := by
  rw [h]
  rfl

theorem condMatchers_exists (f : JStr) (hf : isWordDotPath f = true) (b : Bool) :
    condMatchers ((("ctx.").toList) ++ f) b
      = some { id := generateId, field := f, operator := .existsOp, value := none,
               negated := b } := by
  unfold condMatchers
  rw [matchNotExistsPath_ctx, matchCtxPath_ctx, if_pos hf]

theorem condMatchers_not_exists (f : JStr) (hf : isWordDotPath f = true) (b : Bool) :
    condMatchers ('!' :: ((("ctx.").toList) ++ f)) b
      = some { id := generateId, field := f, operator := .notExistsOp, value := none,
               negated := b } := by
  unfold condMatchers
  rw [matchNotExistsPath_bang, matchCtxPath_ctx, if_pos hf]

theorem parseCondition_core_pos (core : JStr) (c : Condition)
    (hjt : jsTrim core = core)
    (hpre : List.isPrefixOf (("!(").toList) core = false)
    (hcm : condMatchers core false = some c) :
    parseCondition core = some c := by
  simp only [parseCondition]
  rw [hjt, hpre, Bool.false_and]
  simp only [Bool.false_eq_true, if_false]
  exact hcm

theorem parseCondition_core_neg (core : JStr) (c : Condition)
    (hjt : jsTrim ((("!(").toList) ++ (core ++ [')'])) = (("!(").toList) ++ (core ++ [')']))
    (hcm : condMatchers core true = some c) :
    parseCondition ((("!(").toList) ++ (core ++ [')'])) = some c := by
  have hlast : ((("!(").toList) ++ (core ++ [')'])).getLast? = some ')' := by
    rw [getLast?_append_right (("!(").toList) (core ++ [')']) (by simp),
        getLast?_append_right core [')'] (by simp)]
    rfl
  have hpre : List.isPrefixOf (("!(").toList) ((("!(").toList) ++ (core ++ [')'])) = true :=
    isPrefixOf_append_self _ _
  simp only [parseCondition]
  rw [hjt, hpre, Bool.true_and]
  split
  · next h =>
    have hdrop : (((("!(").toList) ++ (core ++ [')'])).drop 2) = core ++ [')'] := rfl
    rw [h, hdrop, List.dropLast_concat]
    exact hcm
  · next h =>
    exfalso
    rw [hlast] at h
    exact h rfl

theorem exists_cond_roundtrip (f : JStr) (neg : Bool) (hf : isWordDotPath f = true) :
    parseCondition (conditionToString
        { id := [], field := f, operator := .existsOp, value := none, negated := neg })
      = some { id := [], field := f, operator := .existsOp, value := none, negated := neg }
    ∧ conditionToString { id := [], field := f, operator := .existsOp, value := none, negated := neg } ≠ []
    ∧ jsTrim (conditionToString { id := [], field := f, operator := .existsOp, value := none, negated := neg })
        = conditionToString { id := [], field := f, operator := .existsOp, value := none, negated := neg }
    ∧ ∀ ch ∈ conditionToString { id := [], field := f, operator := .existsOp, value := none, negated := neg },
        ch ≠ '&' ∧ ch ≠ '|' := by
  have hfne : f ≠ [] := wdp_ne_nil hf
  have hws1 : ∀ ch, ((("ctx.").toList) ++ f).head? = some ch → isWs ch = false := by
    intro ch hch
    have h' : some 'c' = some ch := hch
    injection h' with h''
    rw [← h'']
    decide
  have hws2 : ∀ ch, ((("ctx.").toList) ++ f).getLast? = some ch → isWs ch = false := by
    intro ch hch
    rw [getLast?_append_right (("ctx.").toList) f hfne] at hch
    exact (isPathChar_props ch (wdp_chars hf ch (mem_of_getLast?_eq f ch hch))).2.2
  have hjtCore : jsTrim ((("ctx.").toList) ++ f) = (("ctx.").toList) ++ f :=
    jsTrim_eq_self _ hws1 hws2
  have hchars : ∀ ch ∈ ((("ctx.").toList) ++ f), ch ≠ '&' ∧ ch ≠ '|' := by
    intro ch hch
    rcases List.mem_append.mp hch with h1 | h1
    · have hcx : ∀ x ∈ ("ctx.").toList, x ≠ '&' ∧ x ≠ '|' := by decide
      exact hcx ch h1
    · have hp := isPathChar_props ch (wdp_chars hf ch h1)
      exact ⟨hp.1, hp.2.1⟩
  have hcm : ∀ b : Bool, condMatchers ((("ctx.").toList) ++ f) b
      = some { id := [], field := f, operator := .existsOp, value := none, negated := b } :=
    fun b => condMatchers_exists f hf b
  cases neg with
  | false =>
    have hser : conditionToString
        { id := [], field := f, operator := .existsOp, value := none, negated := false }
        = (("ctx.").toList) ++ f := rfl
    rw [hser]
    refine ⟨?_, ?_, hjtCore, hchars⟩
    · exact parseCondition_core_pos _ _ hjtCore (bang_prefix_ctx _) (hcm false)
    · intro he
      exact absurd (List.append_eq_nil.mp he).1 (by decide)
  | true =>
    have hser : conditionToString
        { id := [], field := f, operator := .existsOp, value := none, negated := true }
        = (("!(").toList) ++ ((((("ctx.").toList) ++ f)) ++ [')']) := rfl
    rw [hser]
    have hjtNeg : jsTrim ((("!(").toList) ++ ((((("ctx.").toList) ++ f)) ++ [')']))
        = (("!(").toList) ++ ((((("ctx.").toList) ++ f)) ++ [')']) := by
      apply jsTrim_eq_self
      · intro ch hch
        have h' : some '!' = some ch := hch
        injection h' with h''
        rw [← h'']
        decide
      · intro ch hch
        rw [getLast?_append_right (("!(").toList) ((((("ctx.").toList) ++ f)) ++ [')'])
              (by simp),
            getLast?_append_right (((("ctx.").toList) ++ f)) [')'] (by simp)] at hch
        have h' : some ')' = some ch := hch
        injection h' with h''
        rw [← h'']
        decide
    refine ⟨?_, ?_, hjtNeg, ?_⟩
    · exact parseCondition_core_neg _ _ hjtNeg (hcm true)
    · intro he
      exact absurd (List.append_eq_nil.mp he).1 (by decide)
    · intro ch hch
      rcases List.mem_append.mp hch with h1 | h1
      · have hbx : ∀ x ∈ ("!(").toList, x ≠ '&' ∧ x ≠ '|' := by decide
        exact hbx ch h1
      rcases List.mem_append.mp h1 with h2 | h2
      · exact hchars ch h2
      · rw [List.mem_singleton.mp h2]
        exact ⟨by decide, by decide⟩

theorem notexists_cond_roundtrip (f : JStr) (neg : Bool) (hf : isWordDotPath f = true) :
    parseCondition (conditionToString
        { id := [], field := f, operator := .notExistsOp, value := none, negated := neg })
      = some { id := [], field := f, operator := .notExistsOp, value := none, negated := neg }
    ∧ conditionToString { id := [], field := f, operator := .notExistsOp, value := none, negated := neg } ≠ []
    ∧ jsTrim (conditionToString { id := [], field := f, operator := .notExistsOp, value := none, negated := neg })
        = conditionToString { id := [], field := f, operator := .notExistsOp, value := none, negated := neg }
    ∧ ∀ ch ∈ conditionToString { id := [], field := f, operator := .notExistsOp, value := none, negated := neg },
        ch ≠ '&' ∧ ch ≠ '|' := by
  have hfne : f ≠ [] := wdp_ne_nil hf
  have hctxne : (("ctx.").toList) ++ f ≠ [] := by
    intro h0
    exact absurd (List.append_eq_nil.mp h0).1 (by decide)
  have hws2core : ∀ ch, ((("ctx.").toList) ++ f).getLast? = some ch → isWs ch = false := by
    intro ch hch
    rw [getLast?_append_right (("ctx.").toList) f hfne] at hch
    exact (isPathChar_props ch (wdp_chars hf ch (mem_of_getLast?_eq f ch hch))).2.2
  have hlastBang : ('!' :: ((("ctx.").toList) ++ f)).getLast? = ((("ctx.").toList) ++ f).getLast? := by
    rw [show ('!' :: ((("ctx.").toList) ++ f)) = ['!'] ++ ((("ctx.").toList) ++ f) from rfl,
        getLast?_append_right ['!'] ((("ctx.").toList) ++ f) hctxne]
  have hws1 : ∀ ch, ('!' :: ((("ctx.").toList) ++ f)).head? = some ch → isWs ch = false := by
    intro ch hch
    have h' : some '!' = some ch := hch
    injection h' with h''
    rw [← h'']
    decide
  have hws2 : ∀ ch, ('!' :: ((("ctx.").toList) ++ f)).getLast? = some ch → isWs ch = false := by
    intro ch hch
    rw [hlastBang] at hch
    exact hws2core ch hch
  have hjtCore : jsTrim ('!' :: ((("ctx.").toList) ++ f)) = '!' :: ((("ctx.").toList) ++ f) :=
    jsTrim_eq_self _ hws1 hws2
  have hchars : ∀ ch ∈ ('!' :: ((("ctx.").toList) ++ f)), ch ≠ '&' ∧ ch ≠ '|' := by
    intro ch hch
    rcases List.mem_cons.mp hch with rfl | h1
    · exact ⟨by decide, by decide⟩
    rcases List.mem_append.mp h1 with h2 | h2
    · have hcx : ∀ x ∈ ("ctx.").toList, x ≠ '&' ∧ x ≠ '|' := by decide
      exact hcx ch h2
    · have hp := isPathChar_props ch (wdp_chars hf ch h2)
      exact ⟨hp.1, hp.2.1⟩
  have hcm : ∀ b : Bool, condMatchers ('!' :: ((("ctx.").toList) ++ f)) b
      = some { id := [], field := f, operator := .notExistsOp, value := none, negated := b } :=
    fun b => condMatchers_not_exists f hf b
  cases neg with
  | false =>
    have hser : conditionToString
        { id := [], field := f, operator := .notExistsOp, value := none, negated := false }
        = '!' :: ((("ctx.").toList) ++ f) := rfl
    rw [hser]
    refine ⟨?_, by simp, hjtCore, hchars⟩
    exact parseCondition_core_pos _ _ hjtCore (bang_prefix_bang_ctx _) (hcm false)
  | true =>
    have hser : conditionToString
        { id := [], field := f, operator := .notExistsOp, value := none, negated := true }
        = (("!(").toList) ++ (('!' :: ((("ctx.").toList) ++ f)) ++ [')']) := rfl
    rw [hser]
    have hjtNeg : jsTrim ((("!(").toList) ++ (('!' :: ((("ctx.").toList) ++ f)) ++ [')']))
        = (("!(").toList) ++ (('!' :: ((("ctx.").toList) ++ f)) ++ [')']) := by
      apply jsTrim_eq_self
      · intro ch hch
        have h' : some '!' = some ch := hch
        injection h' with h''
        rw [← h'']
        decide
      · intro ch hch
        rw [getLast?_append_right (("!(").toList) (('!' :: ((("ctx.").toList) ++ f)) ++ [')'])
              (by simp),
            getLast?_append_right ('!' :: ((("ctx.").toList) ++ f)) [')'] (by simp)] at hch
        have h' : some ')' = some ch := hch
        injection h' with h''
        rw [← h'']
        decide
    refine ⟨?_, ?_, hjtNeg, ?_⟩
    · exact parseCondition_core_neg _ _ hjtNeg (hcm true)
    · intro he
      exact absurd (List.append_eq_nil.mp he).1 (by decide)
    · intro ch hch
      rcases List.mem_append.mp hch with h1 | h1
      · have hbx : ∀ x ∈ ("!(").toList, x ≠ '&' ∧ x ≠ '|' := by decide
        exact hbx ch h1
      rcases List.mem_append.mp h1 with h2 | h2
      · exact hchars ch h2
      · rw [List.mem_singleton.mp h2]
        exact ⟨by decide, by decide⟩

theorem parseExpression_single (s0 : JStr) (c : Condition)
    (hpc : parseCondition s0 = some c)
    (hjt : jsTrim s0 = s0) (hne0 : s0 ≠ [])
    (hch : ∀ ch ∈ s0, ch ≠ '&' ∧ ch ≠ '|') :
    parseExpression s0 = some (.mk [] .and [.cond c] false) := by
  have hemp : (jsTrim s0).isEmpty = false := by
    rw [hjt]
    cases hx : s0 with
    | nil => exact absurd hx hne0
    | cons a t => rfl
  have hA : jsIncludes s0 (("&&").toList) = false :=
    jsIncludes_eq_false s0 '&' ['&'] (fun x hx => (hch x hx).1)
  have hB : jsIncludes s0 (("||").toList) = false :=
    jsIncludes_eq_false s0 '|' ['|'] (fun x hx => (hch x hx).2)
  have hsplit : jsSplit (("&&").toList) s0 = [s0] :=
    jsSplit2_no_occ '&' s0 (fun x hx => (hch x hx).1)
  have hpp : parseParts [s0] = some [c] := by
    unfold parseParts
    rw [hpc]
    rfl
  simp only [parseExpression]
  rw [hemp]
  simp only [Bool.false_eq_true, if_false]
  rw [hA, hB]
  simp only [Bool.false_and, Bool.false_eq_true, if_false]
  rw [if_neg (show ¬(Logic.and = Logic.or) by decide), hsplit,
      show ([s0]).map jsTrim = [jsTrim s0] from rfl, hjt, hpp]
  rfl

/-! Claim C3: the serialize-then-parse round trip on parsed guard trees. -/

/-- C4 counterexample: the specification's own example `!(ctx.a || ctx.b)` —
a parenthesized multi-condition sub-expression prefixed with `!` — does not
parse to a tree containing a negated child group: `parseExpression` returns
`null` on it, because the negation strip of `parseCondition` only fires on a
whole part and the `||` split cuts the example into two unparsable halves. -/
theorem c4_counterexample :
    parseExpression (("!(ctx.a || ctx.b)").toList) = none := rfl

/-- C4 (amended): for every dotted word path `f`, a bare `ctx.f` parses to a
single `exists` condition, a bare `!ctx.f` parses to a single `not_exists`
condition, and a fully parenthesized `!(ctx.f)` parses to a single `exists`
condition with its `negated` flag set — a negated leaf, never a child
group. -/
theorem c4_amended (f : JStr) (hf : isWordDotPath f = true) :
    parseExpression ((("ctx.").toList) ++ f)
      = some (.mk [] .and
          [.cond { id := [], field := f, operator := .existsOp, value := none, negated := false }]
          false)
    ∧ parseExpression ('!' :: ((("ctx.").toList) ++ f))
      = some (.mk [] .and
          [.cond { id := [], field := f, operator := .notExistsOp, value := none, negated := false }]
          false)
    ∧ parseExpression ((("!(").toList) ++ (((("ctx.").toList) ++ f) ++ [')']))
      = some (.mk [] .and
          [.cond { id := [], field := f, operator := .existsOp, value := none, negated := true }]
          false) := by
  refine ⟨?_, ?_, ?_⟩
  · obtain ⟨hpc, hne0, hjt, hch⟩ := exists_cond_roundtrip f false hf
    exact parseExpression_single _ _ hpc hjt hne0 hch
  · obtain ⟨hpc, hne0, hjt, hch⟩ := notexists_cond_roundtrip f false hf
    exact parseExpression_single _ _ hpc hjt hne0 hch
  · obtain ⟨hpc, hne0, hjt, hch⟩ := exists_cond_roundtrip f true hf
    exact parseExpression_single _ _ hpc hjt hne0 hch

/-- Witness for C4 (amended): the three forms at the one-letter path `a`. -/
theorem c4_amended_witness :
    parseExpression (("ctx.a").toList)
      = some (.mk [] .and
          [.cond { id := [], field := [Char.ofNat 97], operator := .existsOp, value := none, negated := false }]
          false)
    ∧ parseExpression (("!ctx.a").toList)
      = some (.mk [] .and
          [.cond { id := [], field := [Char.ofNat 97], operator := .notExistsOp, value := none, negated := false }]
          false)
    ∧ parseExpression (("!(ctx.a)").toList)
      = some (.mk [] .and
          [.cond { id := [], field := [Char.ofNat 97], operator := .existsOp, value := none, negated := true }]
          false) := by
  have h := c4_amended (("a").toList) (by decide)
  exact ⟨h.1, h.2.1, h.2.2⟩

end Studio
